import Mathlib

/-!
Verification of the `feat.py` enumeration engine.

The engine (src/feat.py) provides three kinds of enumerators, all exposing
`card(n)` (number of values of size `n`) and `index(n, i)` (the `i`-th value
of size `n`):

* `Enum` — a sum of alternatives ("constructors"); charges one unit of size
  for selecting the alternative (`card(n) = Σ child.card(n-1)` for `n > 0`,
  `0` for `n ≤ 0`).
* `Constructor` — a product of component enumerators combined by a builder
  function; cardinalities are discrete convolutions, indices are decoded by a
  mixed-radix search.  Arity 0 and arity 1 have special-cased fast paths.
* `IntEnum` — the leaf: `card(n) = 1`, `index(n, i) = n`.

Recursive definitions (e.g. lists) are tied through `Enum` objects: an `Enum`
is created first and children referring back to it are added afterwards.

We embed the system in two complementary ways:

1. A denotational model: enumerator systems are finite environments
   `env : Nat → List Term` assigning to every `Enum` node (named by a natural
   number) its list of children; `Term` is the syntax of children (leaf,
   reference to an `Enum` node, or `Constructor` with a builder function and
   component list).  `cardT` / `indexT` compute cardinalities and values by
   recursion on (size, term structure) — this is the memoization-free meaning
   of the code, faithful to the recurrences the tables implement.  Sizes are
   `Nat` here: the Python code applied at negative sizes reads memo tables
   at negative (wrap-around) positions, behavior that depends on mutable
   state and is modelled separately where a claim needs it.

2. Stateful models of the memoization itself: `enumCardS` models
   `Enum.card` together with its `cards` table (children abstracted as pure
   cardinality functions, as justified by the denotational model), and
   `conCardS` models `Constructor.card`/`expand` together with the matrix
   `cs` and the frontier `next`.  These take `Int` sizes and reproduce the
   Python border behavior (including negative list indexing) exactly.
-/

/-- Universal value type for the untyped Python values the enumerators build:
integers, lists, and string-keyed objects (the JSON demo's dicts, keyed
`a0, a1, ...`, are determined by their value list). -/
inductive Val : Type where
  | vint : Nat → Val
  | vlist : List Val → Val
  | vmap : List Val → Val

/-- Syntax of enumerator terms over an environment of `Enum` nodes named by
naturals: `ref j` is (a reference to) the `Enum` node `j`, `intE` is
`IntEnum()`, and `constr f ts` is `Constructor(f, ts)` with builder `f`
(applied to the decoded component values, like `self.con(*args)`). -/
inductive Term : Type where
  | ref : Nat → Term
  | intE : Term
  | constr : (List Val → Val) → List Term → Term

/-- An enumerator system: the children lists of the `Enum` nodes
(`self.constructors` of each `Enum` object). -/
def Env : Type := Nat → List Term

/-- Helper for the termination proofs: a sufficient condition for the
lexicographic order on `Nat` triples. -/
theorem lex3_of {a₁ a₂ b₁ b₂ c₁ c₂ : Nat}
    (h : a₁ < a₂ ∨ (a₁ = a₂ ∧ (b₁ < b₂ ∨ (b₁ = b₂ ∧ c₁ < c₂)))) :
    Prod.Lex (fun x y => x < y) (Prod.Lex (fun x y => x < y) (fun x y => x < y))
      (a₁, b₁, c₁) (a₂, b₂, c₂) := by
  rcases h with h | ⟨rfl, h | ⟨rfl, h⟩⟩
  · exact Prod.Lex.left _ _ h
  · exact Prod.Lex.right _ (Prod.Lex.left _ _ h)
  · exact Prod.Lex.right _ (Prod.Lex.right _ h)

mutual

/-- `cardT env t n` — the cardinality `t.card(n)` (src/feat.py:29-37, 57-61,
70-72, 117-118).  `Enum.card` returns 0 for `n <= 0` and otherwise the sum
over the children at `n-1`; `IntEnum.card` is 1; `Constructor.card` is the
arity-0 fast path (`1 if n==1 else 0`), the arity-1 fast path (delegation),
or row 0 of the cardinality matrix (`prodCard`). -/
def cardT (env : Env) : Term → Nat → Nat
  | .ref j, n => if n = 0 then 0 else sumCards env (env j) (n - 1)
  | .intE, _ => 1
  | .constr _ [], n => if n = 1 then 1 else 0
  | .constr _ [t], n => cardT env t n
  | .constr _ (t :: t' :: ts), n => prodCard env (t :: t' :: ts) n
termination_by t n => (n, sizeOf t, 0)

/-- The loop `for con in self.constructors: c = c + con.card(...)`
(src/feat.py:33-35). -/
def sumCards (env : Env) : List Term → Nat → Nat
  | [], _ => 0
  | t :: ts, n => cardT env t n + sumCards env ts n
termination_by ts n => (n, sizeOf ts, 0)

/-- `prodCard env ts n` — the matrix entry `cs[k][n]` for the component
suffix `ts = enums[k:]` (src/feat.py:96-110): the last row is the last
component's cardinality, and each earlier row is the convolution
`cs[k][n] = Σ_{i=0}^{n} cs[k+1][i] * enums[k].card(n-i)` (src/feat.py:105-109).
The `[]` case never arises in the source (rows are indexed by components). -/
def prodCard (env : Env) : List Term → Nat → Nat
  | [], _ => 0
  | [t], n => cardT env t n
  | t :: t' :: ts, n => convPC env t (t' :: ts) n n
termination_by ts n => (n, sizeOf ts, n + 1)

/-- The loop `for i in range(self.next+1): c = c + self.cs[k+1][i]*self.enums[k].card(self.next-i)`
(src/feat.py:107-108): `convPC env t ts n k = Σ_{i=0}^{k} prodCard ts i * cardT t (n-i)`. -/
def convPC (env : Env) (t : Term) (ts : List Term) (n : Nat) : Nat → Nat
  | 0 => prodCard env ts 0 * cardT env t n
  | k + 1 => convPC env t ts n k + prodCard env ts (k + 1) * cardT env t (n - (k + 1))
termination_by k => (max n k, sizeOf (t :: ts), k)
decreasing_by
  all_goals simp_wf
  all_goals (apply lex3_of; omega)

end

mutual

/-- `indexT env t n i` — the value `t.index(n, i)` (src/feat.py:39-46, 59-62,
74-93, 120-121); `none` models a raised exception.  `Enum.index` scans the
children at size `n-1` (`scanIdx`); at `n = 0` the Python code reads memo
tables at size `-1`, which is state-dependent wrap-around behavior — it is
modelled as an error here, and no theorem below depends on this corner.
`IntEnum.index` returns the size, ignoring the index.  `Constructor.index` is
the arity-0 fast path (returns `con()` unconditionally), the arity-1 fast
path, or the general mixed-radix decode (`indexProd`) followed by
`self.con(*args)`. -/
def indexT (env : Env) : Term → Nat → Nat → Option Val
  | .ref j, n, i =>
    match n with
    | 0 => none
    | nn + 1 => scanIdx env (env j) nn i
  | .intE, n, _ => some (.vint n)
  | .constr f [], _, _ => some (f [])
  | .constr f [t], n, i => (indexT env t n i).map (fun v => f [v])
  | .constr f (t :: t' :: ts), n, i => (indexProd env (t :: t' :: ts) n i).map f
termination_by t n _ => (n, sizeOf t, 0)

/-- The scan `for con in self.constructors: c = con.card(n-1); if i < c:
return con.index(n-1, i); i = i - c` followed by `raise ValueError`
(src/feat.py:40-46); `nn` is already the decremented size `n-1`. -/
def scanIdx (env : Env) : List Term → Nat → Nat → Option Val
  | [], _, _ => none
  | t :: ts, nn, i =>
    if i < cardT env t nn then indexT env t nn i
    else scanIdx env ts nn (i - cardT env t nn)
termination_by ts nn _ => (nn, sizeOf ts, 0)

/-- The per-component work of `Constructor.index` (src/feat.py:79-90), fused:
the linear search for the component size (`while i >= c: i -= c; esize += 1`
with `c = e.card(esize)*cs[k+1][n-esize]`), then
`(i, ei) = divmod(i, e.card(esize))`, the decode of this component at `ei`,
and the continuation with the remaining components at size `n - esize` and
index `i`.  When `esize` exceeds `n` the Python code reads the matrix at a
negative position (state-dependent wrap-around), modelled as an error; the
in-bounds theorems below never reach that case. -/
def pick (env : Env) (t1 : Term) (ts : List Term) (n : Nat) (esize i : Nat) :
    Option (List Val) :=
  if esize > n then none
  else if i < cardT env t1 esize * prodCard env ts (n - esize) then
    match indexT env t1 esize (i % cardT env t1 esize),
        indexProd env ts (n - esize) (i / cardT env t1 esize) with
    | some v, some vs => some (v :: vs)
    | _, _ => none
  else pick env t1 ts n (esize + 1) (i - cardT env t1 esize * prodCard env ts (n - esize))
termination_by (n, sizeOf (t1 :: ts), n + 1 - esize)
decreasing_by
  all_goals simp_wf
  all_goals (apply lex3_of; omega)

/-- The decoded component values `args` of `Constructor.index`
(src/feat.py:76-92) for the component suffix `ts = enums[k:]`: each component
except the last is decoded by `pick`; the final component consumes the whole
remaining size and index (`args.append(self.enums[-1].index(n, i))`,
src/feat.py:92). -/
def indexProd (env : Env) : List Term → Nat → Nat → Option (List Val)
  | [], _, _ => some []
  | [t], n, i => (indexT env t n i).map (fun v => [v])
  | t :: t' :: ts, n, i => pick env t (t' :: ts) n 0 i
termination_by ts n _ => (n, sizeOf ts, n + 2)

end

/-- The unsized indexing function `ix` (src/feat.py:128-133): scan sizes
upward, subtracting `card(n)` while `index > card(n)` (sic — the source uses
a strict `>`), then delegate.  The loop need not terminate (the source
documents this), so the model takes explicit fuel; `none` covers both fuel
exhaustion and a raised error. -/
def ixM (env : Env) (t : Term) : Nat → Nat → Nat → Option Val
  | 0, _, _ => none
  | fuel + 1, n, j =>
    if j > cardT env t n then ixM env t fuel (n + 1) (j - cardT env t n)
    else indexT env t n j

/-- Builder of the nullary list constructor `lambda: []` (src/feat.py:151). -/
def nilF : List Val → Val := fun _ => .vlist []

/-- The backing list of a list value (helper for `appF`). -/
def asList : Val → List Val
  | .vlist l => l
  | _ => []

/-- Builder of the cons constructor `app(x, xs)` (src/feat.py:141-143):
`xs.append(x); return xs` appends the head component at the end of the list
produced by the tail component. -/
def appF : List Val → Val
  | [x, xs] => .vlist (asList xs ++ [x])
  | _ => .vlist []

/-- The system of `elist(IntEnum())` (src/feat.py:149-153): a single `Enum`
node (node 0) with the nullary constructor and the cons constructor whose
components are `IntEnum()` and the list enumerator itself. -/
def elistEnv : Env := fun _ => [.constr nilF [], .constr appF [.intE, .ref 0]]

/-- Builder of the JSON-object constructor `listToMap` (src/feat.py:159-165,
172): applied (arity 1) to a list value, it produces the object with keys
`a0, a1, ...` and those values — determined by the value list. -/
def listToMapF : List Val → Val
  | [.vlist l] => .vmap l
  | _ => .vmap []

/-- The `ejson` system (src/feat.py:167-172): node 0 is `ejson` with children
`IntEnum()`, `ejsonarray` and the object constructor; node 1 is
`ejsonarray = elist(ejson)`. -/
def ejsonEnv : Env := fun j =>
  if j = 0 then [.intE, .ref 1, .constr listToMapF [.ref 1]]
  else [.constr nilF [], .constr appF [.ref 0, .ref 1]]

/-- An `Enum` with the same nullary constructor added twice
(`e.addcon(Constructor(lambda: 0, [])); e.addcon(Constructor(lambda: 0, []))`)
— a system built only from `Enum` and `Constructor` on which `index(n, ·)`
is not injective. -/
def dupEnv : Env := fun _ =>
  [.constr (fun _ => .vint 0) [], .constr (fun _ => .vint 0) []]

/-- `IntEnum.card` (src/feat.py:117-118): `1` for every argument, negative
sizes included. -/
def intEnumCard (n : Int) : Nat := 1

/-- `IntEnum.index` (src/feat.py:120-121): returns `n` whatever `i` is;
it never raises. -/
def intEnumIndex (n i : Int) : Option Int := some n

/-- The arity-0 fast path `self.card = lambda n: 1 if n==1 else 0`
(src/feat.py:58). -/
def card0 (n : Int) : Nat := if n = 1 then 1 else 0

/-- The accumulation `c = 0; for con in self.constructors: c = c + con.card(k)`
(src/feat.py:33-35), children abstracted as pure cardinality functions. -/
def sumF (fs : List (Nat → Nat)) (k : Nat) : Nat := fs.foldl (fun c f => c + f k) 0

/-- One iteration of the memoization loop of `Enum.card` (src/feat.py:32-36):
append `Σ con.card(len(self.cards)-1)` to the table. -/
def enumStep (fs : List (Nat → Nat)) (tbl : List Nat) : List Nat :=
  tbl ++ [sumF fs (tbl.length - 1)]

/-- `k` iterations of that loop. -/
def enumFill (fs : List (Nat → Nat)) : Nat → List Nat → List Nat
  | 0, tbl => tbl
  | k + 1, tbl => enumFill fs k (enumStep fs tbl)

/-- `Enum.card` with its table `self.cards` as explicit state
(src/feat.py:29-37), children abstracted as pure cardinality functions: for
`n <= 0` return 0 and leave the table alone; otherwise run the
`while n >= len(self.cards)` loop — `n + 1 - len` iterations — and read
`self.cards[n]`.  Sizes are `Int` as in Python. -/
def enumCardS (fs : List (Nat → Nat)) (n : Int) (tbl : List Nat) : Nat × List Nat :=
  if n ≤ 0 then (0, tbl)
  else ((enumFill fs (n.toNat + 1 - tbl.length) tbl).getD n.toNat 0,
    enumFill fs (n.toNat + 1 - tbl.length) tbl)

/-- State of a `Constructor` of arity ≥ 2 (src/feat.py:63-68): the matrix
`self.cs` (row `k` holds the cardinalities of the product `enums[k:]`) and
the frontier `self.next`. -/
structure CState : Type where
  cs : List (List Nat)
  next : Nat

/-- The initial `Constructor` state: `self.cs = [[] for e in enums]`,
`self.next = 0` (src/feat.py:66-68). -/
def initC (fs : List (Nat → Nat)) : CState := ⟨fs.map (fun _ => []), 0⟩

/-- Python list indexing `l[i]`, including the negative wrap-around: `l[i]`
is `l[len(l)+i]` for `-len(l) <= i < 0`, and an `IndexError` (`none`) outside
`[-len(l), len(l))`. -/
def pyGet (l : List Nat) (i : Int) : Option Nat :=
  if 0 ≤ i then l.get? i.toNat
  else if 0 ≤ (l.length : Int) + i then l.get? ((l.length : Int) + i).toNat
  else none

/-- The convolution loop of `expand` (src/feat.py:106-108):
`c = 0; for i in range(s+1): c = c + nextRow[i]*f(s-i)`, where `nextRow` is
row `k+1` after this step's append. -/
def convRow (nextRow : List Nat) (f : Nat → Nat) (s : Nat) : Nat :=
  ∑ i ∈ Finset.range (s + 1), nextRow.getD i 0 * f (s - i)

/-- One iteration of the `while self.next <= n` loop of `expand`
(src/feat.py:98-110) at size `s`: append `enums[-1].card(s)` to the last row
(src/feat.py:100), then fill the earlier rows in descending order, each row
`k` reading the already-extended row `k+1` (src/feat.py:105-109).  `none`
models the `IndexError` of `self.cs[-1]` when there are no rows at all. -/
def extendRows (s : Nat) : List (Nat → Nat) → List (List Nat) → Option (List (List Nat))
  | [f], [row] => some [row ++ [f s]]
  | f :: f' :: fs, row :: rows =>
    match extendRows s (f' :: fs) rows with
    | some rest => some ((row ++ [convRow (rest.headD []) f s]) :: rest)
    | none => none
  | _, _ => none

/-- `k` iterations of the expand loop (src/feat.py:98-110). -/
def conFill (fs : List (Nat → Nat)) : Nat → CState → Option CState
  | 0, s => some s
  | k + 1, s =>
    match extendRows s.next fs s.cs with
    | some cs' => conFill fs k ⟨cs', s.next + 1⟩
    | none => none

/-- `Constructor.card` of the general (arity ≥ 2) branch with the matrix as
explicit state (src/feat.py:70-72 with 96-110): run `expand(n)` — the while
loop makes `n + 1 - next` passes — then read `self.cs[0][n]` with Python
indexing (`n : Int` may be negative).  `none` models a raised `IndexError`. -/
def conCardS (fs : List (Nat → Nat)) (n : Int) (s : CState) : Option Nat × CState :=
  match conFill fs (n + 1 - (s.next : Int)).toNat s with
  | none => (none, s)
  | some s' =>
    match s'.cs with
    | [] => (none, s')
    | row0 :: _ => (pyGet row0 n, s')

/-- The closed-form cardinality of the product of components `fs` — the
specification the matrix rows are shown to satisfy: a single component on
its own, or the convolution of the first component with the rest. -/
def cleanRow : List (Nat → Nat) → Nat → Nat
  | [], _ => 0
  | [f], n => f n
  | f :: f' :: fs, n => ∑ i ∈ Finset.range (n + 1), cleanRow (f' :: fs) i * f (n - i)

/-! ### Closed forms of the summation loops -/

theorem convPC_eq (env : Env) (t : Term) (ts : List Term) (n : Nat) :
    ∀ k, convPC env t ts n k
      = ∑ i ∈ Finset.range (k + 1), prodCard env ts i * cardT env t (n - i)
  | 0 => by simp [convPC]
  | k + 1 => by
    rw [convPC, convPC_eq env t ts n k, Finset.sum_range_succ _ (k + 1)]

theorem prodCard_cons (env : Env) (t t' : Term) (ts : List Term) (n : Nat) :
    prodCard env (t :: t' :: ts) n
      = ∑ i ∈ Finset.range (n + 1), prodCard env (t' :: ts) i * cardT env t (n - i) := by
  rw [prodCard, convPC_eq]

/-- The convolution read in decode order: summing over the size `e` given to
the first component. -/
theorem prodCard_cons_reflect (env : Env) (t t' : Term) (ts : List Term) (n : Nat) :
    prodCard env (t :: t' :: ts) n
      = ∑ e ∈ Finset.range (n + 1), cardT env t e * prodCard env (t' :: ts) (n - e) := by
  rw [prodCard_cons, ← Finset.sum_range_reflect]
  refine Finset.sum_congr rfl (fun i hi => ?_)
  rw [Finset.mem_range] at hi
  have h1 : n + 1 - 1 - i = n - i := by omega
  have h2 : n - (n - i) = i := by omega
  rw [h1, h2, Nat.mul_comm]

/-! ### Characterization of the `Enum.index` scan -/

theorem scanIdx_none (env : Env) : ∀ (ts : List Term) (nn i : Nat),
    sumCards env ts nn ≤ i → scanIdx env ts nn i = none
  | [], _, _, _ => by simp [scanIdx]
  | t :: ts, nn, i, h => by
    rw [sumCards] at h
    rw [scanIdx, if_neg (by omega)]
    exact scanIdx_none env ts nn (i - cardT env t nn) (by omega)

theorem scanIdx_char (env : Env) : ∀ (ts : List Term) (nn i : Nat),
    i < sumCards env ts nn →
    ∃ (a : Nat) (h : a < ts.length) (iloc : Nat),
      iloc < cardT env (ts.get ⟨a, h⟩) nn ∧
      i = sumCards env (ts.take a) nn + iloc ∧
      scanIdx env ts nn i = indexT env (ts.get ⟨a, h⟩) nn iloc
  | [], nn, i, h => by simp [sumCards] at h
  | t :: ts, nn, i, h => by
    rw [sumCards] at h
    by_cases hc : i < cardT env t nn
    · exact ⟨0, by simp, i, hc, by simp [sumCards], by rw [scanIdx, if_pos hc]; rfl⟩
    · obtain ⟨a, ha, iloc, h1, h2, h3⟩ :=
        scanIdx_char env ts nn (i - cardT env t nn) (by omega)
      refine ⟨a + 1, by simpa using ha, iloc, h1, ?_, ?_⟩
      · simp only [List.take_succ_cons, sumCards]
        omega
      · rw [scanIdx, if_neg hc]
        exact h3

/-! ### Characterization of the component-size search of `Constructor.index` -/

/-- The in-range branch of `pick`: decode component `t1` at size `es` and
local index `irem % card`, and the remaining components at size `n - es`
with continuation index `irem / card` (the `divmod` of src/feat.py:89). -/
def decodeAt (env : Env) (t1 : Term) (ts : List Term) (n es irem : Nat) :
    Option (List Val) :=
  match indexT env t1 es (irem % cardT env t1 es),
      indexProd env ts (n - es) (irem / cardT env t1 es) with
  | some v, some vs => some (v :: vs)
  | _, _ => none

theorem pick_char (env : Env) (t1 : Term) (ts : List Term) (n : Nat) :
    ∀ (esize i : Nat), esize ≤ n →
    i < ∑ e ∈ Finset.Ico esize (n + 1), cardT env t1 e * prodCard env ts (n - e) →
    ∃ es irem,
      esize ≤ es ∧ es ≤ n ∧
      irem < cardT env t1 es * prodCard env ts (n - es) ∧
      i = (∑ e ∈ Finset.Ico esize es, cardT env t1 e * prodCard env ts (n - e)) + irem ∧
      pick env t1 ts n esize i = decodeAt env t1 ts n es irem := by
  intro esize i hle hlt
  rw [pick, if_neg (by omega)]
  by_cases hc : i < cardT env t1 esize * prodCard env ts (n - esize)
  · exact ⟨esize, i, le_refl _, hle, hc, by simp, by rw [if_pos hc]; rfl⟩
  · have hsplit : ∑ e ∈ Finset.Ico esize (n + 1), cardT env t1 e * prodCard env ts (n - e)
        = cardT env t1 esize * prodCard env ts (n - esize)
          + ∑ e ∈ Finset.Ico (esize + 1) (n + 1), cardT env t1 e * prodCard env ts (n - e) :=
      Finset.sum_eq_sum_Ico_succ_bot (by omega) _
    have hne : esize ≠ n := by
      rintro rfl
      rw [hsplit] at hlt
      rw [Finset.Ico_self, Finset.sum_empty] at hlt
      omega
    obtain ⟨es, irem, h1, h2, h3, h4, h5⟩ :=
      pick_char env t1 ts n (esize + 1) (i - cardT env t1 esize * prodCard env ts (n - esize))
        (by omega) (by omega)
    have hsplit2 : ∑ e ∈ Finset.Ico esize es, cardT env t1 e * prodCard env ts (n - e)
        = cardT env t1 esize * prodCard env ts (n - esize)
          + ∑ e ∈ Finset.Ico (esize + 1) es, cardT env t1 e * prodCard env ts (n - e) :=
      Finset.sum_eq_sum_Ico_succ_bot (by omega) _
    exact ⟨es, irem, by omega, h2, h3, by omega, by rw [if_neg hc]; exact h5⟩
termination_by esize => n + 1 - esize

/-- Whenever `pick` succeeds, its result is a cons of a value decoded by the
first component and values decoded by the remaining components. -/
theorem pick_shape (env : Env) (t1 : Term) (ts : List Term) (n : Nat) :
    ∀ (esize i : Nat) (out : List Val), pick env t1 ts n esize i = some out →
    ∃ es iv jv v vs, out = v :: vs ∧
      indexT env t1 es iv = some v ∧ indexProd env ts (n - es) jv = some vs := by
  intro esize i out h
  rw [pick] at h
  by_cases hgt : esize > n
  · rw [if_pos hgt] at h; exact absurd h (by simp)
  · rw [if_neg hgt] at h
    by_cases hc : i < cardT env t1 esize * prodCard env ts (n - esize)
    · rw [if_pos hc] at h
      revert h
      match h1 : indexT env t1 esize (i % cardT env t1 esize),
          h2 : indexProd env ts (n - esize) (i / cardT env t1 esize) with
      | some v, some vs =>
        intro h
        exact ⟨esize, _, _, v, vs, by simpa using h.symm, h1, h2⟩
      | some v, none => intro h; exact absurd h (by simp)
      | none, _ => intro h; exact absurd h (by simp)
    · rw [if_neg hc] at h
      exact pick_shape env t1 ts n (esize + 1)
        (i - cardT env t1 esize * prodCard env ts (n - esize)) out h
termination_by esize => n + 1 - esize

/-! ### In-bounds indexing always succeeds (termination and totality of the
decode: every `i < card(n)` yields a value) -/

mutual

theorem indexT_total (env : Env) : ∀ (t : Term) (n i : Nat),
    i < cardT env t n → ∃ v, indexT env t n i = some v
  | .ref j, 0, i, h => by rw [cardT, if_pos rfl] at h; omega
  | .ref j, nn + 1, i, h => by
    rw [cardT, if_neg (by omega), Nat.add_sub_cancel] at h
    obtain ⟨a, ha, iloc, h1, _, h3⟩ := scanIdx_char env (env j) nn i h
    obtain ⟨v, hv⟩ := indexT_total env ((env j).get ⟨a, ha⟩) nn iloc h1
    refine ⟨v, ?_⟩
    rw [indexT, h3, hv]
  | .intE, n, i, _ => ⟨.vint n, by rw [indexT]⟩
  | .constr f [], n, i, h => by
    rw [cardT] at h
    exact ⟨f [], by rw [indexT]⟩
  | .constr f [t], n, i, h => by
    rw [cardT] at h
    obtain ⟨v, hv⟩ := indexT_total env t n i h
    exact ⟨f [v], by rw [indexT, hv]; rfl⟩
  | .constr f (t :: t' :: ts), n, i, h => by
    rw [cardT] at h
    obtain ⟨vs, hvs⟩ := indexProd_total env (t :: t' :: ts) n i h
    exact ⟨f vs, by rw [indexT, hvs]; rfl⟩
termination_by t n i _ => (n, sizeOf t, 0)
decreasing_by
  all_goals simp_wf
  all_goals (apply lex3_of; omega)

theorem indexProd_total (env : Env) : ∀ (ts : List Term) (n i : Nat),
    i < prodCard env ts n → ∃ vs, indexProd env ts n i = some vs
  | [], n, i, h => by rw [prodCard] at h; omega
  | [t], n, i, h => by
    rw [prodCard] at h
    obtain ⟨v, hv⟩ := indexT_total env t n i h
    exact ⟨[v], by rw [indexProd, hv]; rfl⟩
  | t :: t' :: ts, n, i, h => by
    rw [prodCard_cons_reflect] at h
    have h' : i < ∑ e ∈ Finset.Ico 0 (n + 1),
        cardT env t e * prodCard env (t' :: ts) (n - e) := by
      rwa [← Finset.range_eq_Ico]
    obtain ⟨es, irem, _, hes, hirem, _, hpick⟩ :=
      pick_char env t (t' :: ts) n 0 i (by omega) h'
    have hc1 : 0 < cardT env t es := by
      rcases Nat.eq_zero_or_pos (cardT env t es) with h0 | h0
      · rw [h0] at hirem; omega
      · exact h0
    have hrest : 0 < prodCard env (t' :: ts) (n - es) := by
      rcases Nat.eq_zero_or_pos (prodCard env (t' :: ts) (n - es)) with h0 | h0
      · rw [h0] at hirem; omega
      · exact h0
    obtain ⟨v, hv⟩ := indexT_total env t es (irem % cardT env t es)
      (Nat.mod_lt _ hc1)
    obtain ⟨vs, hvs⟩ := indexProd_total env (t' :: ts) (n - es)
      (irem / cardT env t es) ((Nat.div_lt_iff_lt_mul hc1).mpr (by
        calc irem < cardT env t es * prodCard env (t' :: ts) (n - es) := hirem
        _ = prodCard env (t' :: ts) (n - es) * cardT env t es := Nat.mul_comm _ _))
    refine ⟨v :: vs, ?_⟩
    rw [indexProd, hpick, decodeAt, hv, hvs]
termination_by ts n i _ => (n, sizeOf ts, 0)
decreasing_by
  all_goals simp_wf
  all_goals (apply lex3_of; omega)

end

/-! ### Injectivity of the index decode

`index(n, ·)` cannot be injective for arbitrary builder functions (two
identical nullary constructors added to the same `Enum` give colliding
values, see `dupEnv`).  It is injective whenever the system is *well built*:
every builder is injective on the argument tuples its components can actually
produce, and distinct alternatives of each `Enum` produce disjoint value sets
— both hold for proper algebraic-datatype constructors such as those of
`elist` and `ejson`. -/

/-- `t` can produce the value `v`: some in-bounds `index(n, i)` call returns
`v`. -/
def Produces (env : Env) (t : Term) (v : Val) : Prop :=
  ∃ n i, i < cardT env t n ∧ indexT env t n i = some v

/-- The component list `ts` can produce the value tuple `vs`. -/
def ProducesL (env : Env) (ts : List Term) (vs : List Val) : Prop :=
  ∃ n i, i < prodCard env ts n ∧ indexProd env ts n i = some vs

mutual

/-- All builder functions inside `t` are injective on producible argument
tuples. -/
def GoodB (env : Env) : Term → Prop
  | .ref _ => True
  | .intE => True
  | .constr f ts =>
    (∀ vs vs', ProducesL env ts vs → ProducesL env ts vs' → f vs = f vs' → vs = vs') ∧
      GoodBL env ts
termination_by t => sizeOf t

/-- `GoodB` for every term of a list. -/
def GoodBL (env : Env) : List Term → Prop
  | [] => True
  | t :: ts => GoodB env t ∧ GoodBL env ts
termination_by ts => sizeOf ts

end

/-- A well-built system: every `Enum` node has well-built children whose
value sets are pairwise disjoint. -/
def GoodEnv (env : Env) : Prop :=
  ∀ j, GoodBL env (env j) ∧
    (env j).Pairwise (fun a b => ∀ v, Produces env a v → Produces env b v → False)

theorem GoodBL_mem (env : Env) :
    ∀ (ts : List Term), GoodBL env ts → ∀ t ∈ ts, GoodB env t
  | [], _, t, ht => absurd ht (by simp)
  | t' :: ts, h, t, ht => by
    rw [GoodBL] at h
    rcases List.mem_cons.mp ht with rfl | ht'
    · exact h.1
    · exact GoodBL_mem env ts h.2 t ht'

theorem GoodBL_get (env : Env) (ts : List Term) (h : GoodBL env ts)
    (a : Nat) (ha : a < ts.length) : GoodB env (ts.get ⟨a, ha⟩) :=
  GoodBL_mem env ts h _ (List.get_mem ts a ha)

mutual

theorem indexT_inj (env : Env) (he : GoodEnv env) :
    ∀ (t : Term) (n i n' i' : Nat) (v : Val),
    GoodB env t →
    i < cardT env t n → i' < cardT env t n' →
    indexT env t n i = some v → indexT env t n' i' = some v →
    n = n' ∧ i = i'
  | .ref j, 0, i, n', i', v, _, hi, _, _, _ => by
    rw [cardT, if_pos rfl] at hi; omega
  | .ref j, nn + 1, i, 0, i', v, _, _, hi', _, _ => by
    rw [cardT, if_pos rfl] at hi'; omega
  | .ref j, nn + 1, i, nn' + 1, i', v, _, hi, hi', hv, hv' => by
    rw [cardT, if_neg (by omega), Nat.add_sub_cancel] at hi
    rw [cardT, if_neg (by omega), Nat.add_sub_cancel] at hi'
    rw [indexT] at hv
    rw [indexT] at hv'
    obtain ⟨a, ha, iloc, hl1, hl2, hl3⟩ := scanIdx_char env (env j) nn i hi
    obtain ⟨a', ha', iloc', hr1, hr2, hr3⟩ := scanIdx_char env (env j) nn' i' hi'
    rw [hl3] at hv
    rw [hr3] at hv'
    have hdisj := (he j).2
    have haa : a = a' := by
      by_contra hne
      rcases Nat.lt_or_ge a a' with hlt | hge
      · exact (List.pairwise_iff_get.mp hdisj ⟨a, ha⟩ ⟨a', ha'⟩ hlt) v
          ⟨nn, iloc, hl1, hv⟩ ⟨nn', iloc', hr1, hv'⟩
      · have hlt' : a' < a := by omega
        exact (List.pairwise_iff_get.mp hdisj ⟨a', ha'⟩ ⟨a, ha⟩ hlt') v
          ⟨nn', iloc', hr1, hv'⟩ ⟨nn, iloc, hl1, hv⟩
    subst haa
    obtain ⟨hn, hii⟩ := indexT_inj env he ((env j).get ⟨a, ha⟩) nn iloc nn' iloc' v
      (GoodBL_get env (env j) (he j).1 a ha) hl1 hr1 hv hv'
    constructor
    · omega
    · rw [hl2, hr2, hii, hn]
  | .intE, n, i, n', i', v, _, hi, hi', hv, hv' => by
    rw [cardT] at hi
    rw [cardT] at hi'
    rw [indexT] at hv
    rw [indexT] at hv'
    have : Val.vint n = Val.vint n' := by
      rw [Option.some_inj.mp hv, Option.some_inj.mp hv']
    exact ⟨Val.vint.inj this, by omega⟩
  | .constr f [], n, i, n', i', v, _, hi, hi', _, _ => by
    rw [cardT] at hi
    rw [cardT] at hi'
    constructor
    · by_cases h1 : n = 1 <;> by_cases h2 : n' = 1 <;> simp [h1, h2] at hi hi' <;> omega
    · by_cases h1 : n = 1 <;> by_cases h2 : n' = 1 <;> simp [h1, h2] at hi hi' <;> omega
  | .constr f [t], n, i, n', i', v, hg, hi, hi', hv, hv' => by
    rw [cardT] at hi
    rw [cardT] at hi'
    rw [indexT] at hv
    rw [indexT] at hv'
    rw [GoodB] at hg
    obtain ⟨w, hw, hfw⟩ := Option.map_eq_some'.mp hv
    obtain ⟨w', hw', hfw'⟩ := Option.map_eq_some'.mp hv'
    have hww : [w] = [w'] := hg.1 [w] [w']
      ⟨n, i, by rw [prodCard]; exact hi, by rw [indexProd, hw]; rfl⟩
      ⟨n', i', by rw [prodCard]; exact hi', by rw [indexProd, hw']; rfl⟩
      (by rw [hfw, hfw'])
    have hw2 : w = w' := by simpa using hww
    exact indexT_inj env he t n i n' i' w
      (GoodBL_mem env [t] hg.2 t (by simp)) hi hi' hw (by rw [hw', hw2])
  | .constr f (t :: t' :: ts), n, i, n', i', v, hg, hi, hi', hv, hv' => by
    rw [cardT] at hi
    rw [cardT] at hi'
    rw [indexT] at hv
    rw [indexT] at hv'
    rw [GoodB] at hg
    obtain ⟨A, hA, hfA⟩ := Option.map_eq_some'.mp hv
    obtain ⟨A', hA', hfA'⟩ := Option.map_eq_some'.mp hv'
    have hAA : A = A' := hg.1 A A' ⟨n, i, hi, hA⟩ ⟨n', i', hi', hA'⟩ (by rw [hfA, hfA'])
    exact indexProd_inj env he (t :: t' :: ts) n i n' i' A hg.2 hi hi'
      hA (by rw [hA', hAA])
termination_by t n i n' i' _ _ _ _ _ _ => (n + n', sizeOf t, 0)
decreasing_by
  all_goals simp_wf
  all_goals (apply lex3_of; omega)

theorem indexProd_inj (env : Env) (he : GoodEnv env) :
    ∀ (ts : List Term) (n i n' i' : Nat) (vs : List Val),
    GoodBL env ts →
    i < prodCard env ts n → i' < prodCard env ts n' →
    indexProd env ts n i = some vs → indexProd env ts n' i' = some vs →
    n = n' ∧ i = i'
  | [], n, i, n', i', vs, _, hi, _, _, _ => by rw [prodCard] at hi; omega
  | [t], n, i, n', i', vs, hg, hi, hi', hv, hv' => by
    rw [prodCard] at hi
    rw [prodCard] at hi'
    rw [indexProd] at hv
    rw [indexProd] at hv'
    rw [GoodBL] at hg
    obtain ⟨w, hw, hfw⟩ := Option.map_eq_some'.mp hv
    obtain ⟨w', hw', hfw'⟩ := Option.map_eq_some'.mp hv'
    have hww : w = w' := by
      have h2 : [w] = [w'] := hfw.trans hfw'.symm
      simpa using h2
    exact indexT_inj env he t n i n' i' w hg.1 hi hi' hw (by rw [hw', hww])
  | t :: t' :: ts, n, i, n', i', vs, hg, hi, hi', hv, hv' => by
    rw [prodCard_cons_reflect] at hi
    rw [prodCard_cons_reflect] at hi'
    rw [indexProd] at hv
    rw [indexProd] at hv'
    rw [GoodBL] at hg
    obtain ⟨es, irem, _, hes, hirem, hieq, hpick⟩ :=
      pick_char env t (t' :: ts) n 0 i (by omega) (by rwa [← Finset.range_eq_Ico])
    obtain ⟨es', irem', _, hes', hirem', hieq', hpick'⟩ :=
      pick_char env t (t' :: ts) n' 0 i' (by omega) (by rwa [← Finset.range_eq_Ico])
    rw [hpick] at hv
    rw [hpick'] at hv'
    have hc1 : 0 < cardT env t es := by
      rcases Nat.eq_zero_or_pos (cardT env t es) with h0 | h0
      · rw [h0] at hirem; omega
      · exact h0
    have hc1' : 0 < cardT env t es' := by
      rcases Nat.eq_zero_or_pos (cardT env t es') with h0 | h0
      · rw [h0] at hirem'; omega
      · exact h0
    rw [decodeAt] at hv
    rw [decodeAt] at hv'
    revert hv
    match hH : indexT env t es (irem % cardT env t es),
        hT : indexProd env (t' :: ts) (n - es) (irem / cardT env t es) with
    | none, _ => intro hv; exact absurd hv (by simp)
    | some w, none => intro hv; exact absurd hv (by simp)
    | some w, some tl =>
    intro hv
    revert hv'
    match hH' : indexT env t es' (irem' % cardT env t es'),
        hT' : indexProd env (t' :: ts) (n' - es') (irem' / cardT env t es') with
    | none, _ => intro hv'; exact absurd hv' (by simp)
    | some w', none => intro hv'; exact absurd hv' (by simp)
    | some w', some tl' =>
    intro hv'
    have hvs : vs = w :: tl := by exact (Option.some_inj.mp hv).symm
    have hvs' : vs = w' :: tl' := by exact (Option.some_inj.mp hv').symm
    have hcons : w = w' ∧ tl = tl' := by rw [hvs] at hvs'; simpa using hvs'
    have hww : w = w' := hcons.1
    have htltl : tl = tl' := hcons.2
    obtain ⟨hesq, hmodq⟩ := indexT_inj env he t es (irem % cardT env t es)
      es' (irem' % cardT env t es') w hg.1 (Nat.mod_lt _ hc1) (Nat.mod_lt _ hc1')
      hH (by rw [hH', hww])
    subst hesq
    have hdivlt : irem / cardT env t es < prodCard env (t' :: ts) (n - es) :=
      (Nat.div_lt_iff_lt_mul hc1).mpr (by
        calc irem < cardT env t es * prodCard env (t' :: ts) (n - es) := hirem
        _ = prodCard env (t' :: ts) (n - es) * cardT env t es := Nat.mul_comm _ _)
    have hdivlt' : irem' / cardT env t es < prodCard env (t' :: ts) (n' - es) :=
      (Nat.div_lt_iff_lt_mul hc1').mpr (by
        calc irem' < cardT env t es * prodCard env (t' :: ts) (n' - es) := hirem'
        _ = prodCard env (t' :: ts) (n' - es) * cardT env t es := Nat.mul_comm _ _)
    obtain ⟨hrestq, hdivq⟩ := indexProd_inj env he (t' :: ts) (n - es)
      (irem / cardT env t es) (n' - es) (irem' / cardT env t es) tl hg.2
      hdivlt hdivlt' hT (by rw [hT', htltl])
    have hnn : n = n' := by omega
    subst hnn
    have hiremq : irem = irem' := by
      have e1 := (Nat.div_add_mod irem (cardT env t es)).symm
      rw [hdivq, hmodq] at e1
      rw [e1, Nat.div_add_mod]
    constructor
    · rfl
    · rw [hieq, hieq', hiremq]
termination_by ts n i n' i' _ _ _ _ _ _ => (n + n', sizeOf ts, 0)
decreasing_by
  all_goals simp_wf
  all_goals (apply lex3_of; omega)

end

/-! ### The `elist` system is well built -/

/-- The nullary constructor produces only the empty list, whatever `n, i`. -/
theorem nilC_index (env : Env) (n i : Nat) :
    indexT env (.constr nilF []) n i = some (.vlist []) := by
  rw [indexT]; rfl

/-- Any value of a binary `app` constructor is a nonempty list (the head
component's value appended at the end). -/
theorem consC_shape (env : Env) (t1 t2 : Term) (n i : Nat) (v : Val)
    (h : indexT env (.constr appF [t1, t2]) n i = some v) :
    ∃ x l, v = .vlist (l ++ [x]) := by
  rw [indexT] at h
  obtain ⟨A, hA, hfA⟩ := Option.map_eq_some'.mp h
  rw [indexProd] at hA
  obtain ⟨es, iv, jv, w, vs, hout, _, hvs⟩ := pick_shape env t1 [t2] n 0 i A hA
  rw [indexProd] at hvs
  obtain ⟨w2, _, hfw2⟩ := Option.map_eq_some'.mp hvs
  subst hout
  refine ⟨w, asList w2, ?_⟩
  rw [← hfA, ← hfw2]
  simp [appF]

/-- Any argument tuple producible by the components `[intE, ref j]` of a cons
constructor has the form `[x, w]` with `w` produced by `ref j`. -/
theorem consC_args_shape (env : Env) (t1 t2 : Term) (vs : List Val)
    (h : ProducesL env [t1, t2] vs) :
    ∃ x w, vs = [x, w] ∧ ∃ m q, indexT env t2 m q = some w := by
  obtain ⟨n, i, _, hvs⟩ := h
  rw [indexProd] at hvs
  obtain ⟨es, iv, jv, w, tl, hout, hw, htl⟩ := pick_shape env t1 [t2] n 0 i vs hvs
  rw [indexProd] at htl
  obtain ⟨w2, hw2, hfw2⟩ := Option.map_eq_some'.mp htl
  subst hout
  exact ⟨w, w2, by rw [← hfw2], n - es, jv, hw2⟩

/-- Every value the `elist` enumerator produces is a list value. -/
theorem elist_ref_shape : ∀ (n i : Nat) (v : Val),
    indexT elistEnv (.ref 0) n i = some v → ∃ l, v = .vlist l := by
  intro n i v h
  match n with
  | 0 => rw [indexT] at h; exact absurd h (by simp)
  | nn + 1 =>
    rw [indexT] at h
    have henv : elistEnv 0 = [.constr nilF [], .constr appF [.intE, .ref 0]] := rfl
    rw [henv, scanIdx] at h
    by_cases h1 : i < cardT elistEnv (.constr nilF []) nn
    · rw [if_pos h1, nilC_index] at h
      exact ⟨[], (Option.some_inj.mp h).symm⟩
    · rw [if_neg h1, scanIdx] at h
      by_cases h2 : i - cardT elistEnv (.constr nilF []) nn
          < cardT elistEnv (.constr appF [.intE, .ref 0]) nn
      · rw [if_pos h2] at h
        obtain ⟨x, l, hxl⟩ := consC_shape elistEnv .intE (.ref 0) nn _ v h
        exact ⟨l ++ [x], hxl⟩
      · rw [if_neg h2, scanIdx] at h
        exact absurd h (by simp)

/-- Appending a final element is injective. -/
theorem append_singleton_inj {l l' : List Val} {x x' : Val}
    (h : l ++ [x] = l' ++ [x']) : x = x' ∧ l = l' := by
  have h2 := congrArg List.reverse h
  simp at h2
  exact ⟨h2.1, h2.2⟩

/-- The `elist(IntEnum())` system is well built: its builders are injective
on producible arguments, and its two alternatives (empty list vs. nonempty
list) have disjoint value sets. -/
theorem elistEnv_good : GoodEnv elistEnv := by
  intro j
  have henv : elistEnv j = [.constr nilF [], .constr appF [.intE, .ref 0]] := rfl
  rw [henv]
  constructor
  · rw [GoodBL]
    refine ⟨?_, ?_⟩
    · rw [GoodB]
      refine ⟨?_, by rw [GoodBL]; trivial⟩
      intro vs vs' hvs _ _
      obtain ⟨n, i, hlt, _⟩ := hvs
      rw [prodCard] at hlt
      omega
    · rw [GoodBL]
      refine ⟨?_, by rw [GoodBL]; trivial⟩
      rw [GoodB]
      refine ⟨?_, by simp [GoodBL, GoodB]⟩
      intro vs vs' hvs hvs' heq
      obtain ⟨x, w, hxw, m, q, hw⟩ := consC_args_shape elistEnv .intE (.ref 0) vs hvs
      obtain ⟨x', w', hxw', m', q', hw'⟩ := consC_args_shape elistEnv .intE (.ref 0) vs' hvs'
      obtain ⟨l, hl⟩ := elist_ref_shape m q w hw
      obtain ⟨l', hl'⟩ := elist_ref_shape m' q' w' hw'
      subst hxw
      subst hxw'
      subst hl
      subst hl'
      have heq2 : l ++ [x] = l' ++ [x'] := by
        have h3 : Val.vlist (l ++ [x]) = Val.vlist (l' ++ [x']) := by
          simpa [appF, asList] using heq
        simpa using h3
      obtain ⟨hx, hl2⟩ := append_singleton_inj heq2
      rw [hx, hl2]
  · refine List.Pairwise.cons ?_ (List.pairwise_singleton _ _)
    intro b hb v hv hv'
    have hb2 : b = .constr appF [.intE, .ref 0] := by simpa using hb
    subst hb2
    obtain ⟨n, i, _, hvnil⟩ := hv
    obtain ⟨n', i', _, hvcons⟩ := hv'
    rw [nilC_index] at hvnil
    obtain ⟨x, l, hxl⟩ := consC_shape elistEnv .intE (.ref 0) n' i' v hvcons
    rw [← Option.some_inj.mp hvnil] at hxl
    exact absurd (congrArg asList hxl) (by simp [asList])

/-! ### The `Enum.cards` table computes the sum recurrence -/

/-- Valid `Enum.cards` tables, as left by `__init__`/`addcon`
(`self.cards = [0]`, src/feat.py:22, 27) and any number of `card` calls:
entry 0 is the placeholder 0 and entry `k ≥ 1` is `Σ con.card(k-1)`. -/
def EnumTblOK (fs : List (Nat → Nat)) (tbl : List Nat) : Prop :=
  1 ≤ tbl.length ∧
    ∀ k, k < tbl.length → tbl.getD k 0 = if k = 0 then 0 else sumF fs (k - 1)

theorem enumStep_ok (fs : List (Nat → Nat)) (tbl : List Nat) (h : EnumTblOK fs tbl) :
    EnumTblOK fs (enumStep fs tbl) ∧ (enumStep fs tbl).length = tbl.length + 1 := by
  obtain ⟨h1, h2⟩ := h
  refine ⟨⟨?_, ?_⟩, by simp [enumStep]⟩
  · simp [enumStep]
  · intro k hk
    rw [enumStep] at hk ⊢
    simp only [List.length_append, List.length_cons, List.length_nil] at hk
    by_cases hlt : k < tbl.length
    · rw [List.getD_append _ _ _ _ hlt]
      exact h2 k hlt
    · have hkeq : k = tbl.length := by omega
      subst hkeq
      rw [if_neg (by omega), List.getD_append_right _ _ _ _ (le_refl _)]
      simp

theorem enumFill_ok (fs : List (Nat → Nat)) :
    ∀ (k : Nat) (tbl : List Nat), EnumTblOK fs tbl →
    EnumTblOK fs (enumFill fs k tbl) ∧ (enumFill fs k tbl).length = tbl.length + k ∧
      ∃ u, enumFill fs k tbl = tbl ++ u
  | 0, tbl, h => ⟨h, by rw [enumFill]; omega, ⟨[], by rw [enumFill]; simp⟩⟩
  | k + 1, tbl, h => by
    obtain ⟨hS, hlen⟩ := enumStep_ok fs tbl h
    obtain ⟨h1, h2, u, hu⟩ := enumFill_ok fs k (enumStep fs tbl) hS
    refine ⟨h1, by rw [enumFill]; omega, ?_⟩
    refine ⟨[sumF fs (tbl.length - 1)] ++ u, ?_⟩
    rw [enumFill, hu, enumStep, List.append_assoc]

/-- Master lemma for `Enum.card`: from a valid table, the call returns the
sum recurrence, extends the table append-only, and leaves it valid. -/
theorem enumCardS_ok (fs : List (Nat → Nat)) (n : Int) (tbl : List Nat)
    (h : EnumTblOK fs tbl) :
    (enumCardS fs n tbl).1 = (if n ≤ 0 then 0 else sumF fs ((n - 1).toNat)) ∧
    EnumTblOK fs (enumCardS fs n tbl).2 ∧
    (∃ u, (enumCardS fs n tbl).2 = tbl ++ u) ∧
    max tbl.length (n + 1).toNat ≤ (enumCardS fs n tbl).2.length := by
  by_cases hneg : n ≤ 0
  · rw [enumCardS, if_pos hneg]
    refine ⟨by rw [if_pos hneg], h, ⟨[], by simp⟩, ?_⟩
    have h1 := h.1
    simp only []
    omega
  · obtain ⟨h1, h2, u, hu⟩ := enumFill_ok fs (n.toNat + 1 - tbl.length) tbl h
    rw [enumCardS, if_neg hneg]
    refine ⟨?_, h1, ⟨u, hu⟩, by simp only []; omega⟩
    rw [if_neg hneg]
    have hlt : n.toNat < (enumFill fs (n.toNat + 1 - tbl.length) tbl).length := by omega
    simp only []
    rw [h1.2 n.toNat hlt, if_neg (by omega)]
    have he : (n - 1).toNat = n.toNat - 1 := by omega
    rw [he]

/-! ### The `Constructor` matrix computes the convolution recurrence -/

theorem cleanRow_cons (f : Nat → Nat) (gs : List (Nat → Nat)) (hgs : gs ≠ [])
    (p : Nat) :
    cleanRow (f :: gs) p = ∑ i ∈ Finset.range (p + 1), cleanRow gs i * f (p - i) := by
  match gs with
  | g :: gs' => rw [cleanRow]
  | [] => exact absurd rfl hgs

/-- The convolution read in the claim's orientation
(`components[k].card(i) * cs[k+1][n-i]`). -/
theorem cleanRow_cons_reflect (f : Nat → Nat) (gs : List (Nat → Nat))
    (hgs : gs ≠ []) (p : Nat) :
    cleanRow (f :: gs) p = ∑ i ∈ Finset.range (p + 1), f i * cleanRow gs (p - i) := by
  rw [cleanRow_cons f gs hgs, ← Finset.sum_range_reflect]
  refine Finset.sum_congr rfl (fun i hi => ?_)
  rw [Finset.mem_range] at hi
  have h1 : p + 1 - 1 - i = p - i := by omega
  have h2 : p - (p - i) = i := by omega
  rw [h1, h2, Nat.mul_comm]

/-- Valid `Constructor` matrices: `K` rows, row `k` holding
`cleanRow (fs.drop k)` for every size below the frontier `next`. -/
def CSOK (fs : List (Nat → Nat)) (s : CState) : Prop :=
  s.cs.length = fs.length ∧
    ∀ k, k < fs.length → (s.cs.getD k []).length = s.next ∧
      ∀ j, j < s.next → (s.cs.getD k []).getD j 0 = cleanRow (List.drop k fs) j

theorem extendRows_ok : ∀ (fs : List (Nat → Nat)) (rows : List (List Nat)) (sz : Nat),
    fs ≠ [] → rows.length = fs.length →
    (∀ k, k < fs.length → (rows.getD k []).length = sz ∧
      ∀ j, j < sz → (rows.getD k []).getD j 0 = cleanRow (List.drop k fs) j) →
    ∃ rows', extendRows sz fs rows = some rows' ∧ rows'.length = fs.length ∧
      ∀ k, k < fs.length →
        rows'.getD k [] = rows.getD k [] ++ [cleanRow (List.drop k fs) sz]
  | [], _, _, hfs, _, _ => absurd rfl hfs
  | [f], rows, sz, _, hlen, _ => by
    match rows with
    | [row] =>
      refine ⟨[row ++ [f sz]], by rw [extendRows], by simp, ?_⟩
      intro k hk
      simp at hk
      subst hk
      simp [cleanRow]
  | f :: f' :: fs', rows, sz, _, hlen, hinv => by
    match rows with
    | row :: rows2 =>
      have hlen2 : rows2.length = (f' :: fs').length := by simpa using hlen
      have hinv2 : ∀ k, k < (f' :: fs').length → (rows2.getD k []).length = sz ∧
          ∀ j, j < sz → (rows2.getD k []).getD j 0 = cleanRow (List.drop k (f' :: fs')) j := by
        intro k hk
        have := hinv (k + 1) (by simpa using Nat.succ_lt_succ hk)
        simpa using this
      obtain ⟨rest, hrest, hrestlen, hrestext⟩ :=
        extendRows_ok (f' :: fs') rows2 sz (by simp) hlen2 hinv2
      refine ⟨(row ++ [convRow (rest.headD []) f sz]) :: rest, ?_, by simpa using hrestlen, ?_⟩
      · rw [extendRows, hrest]
      · have hhead : rest.headD [] = rows2.getD 0 [] ++ [cleanRow (f' :: fs') sz] := by
          have h0 := hrestext 0 (by simp)
          rw [List.drop_zero] at h0
          match rest, hrestlen with
          | r0 :: _, _ => simpa using h0
        have hconv : convRow (rest.headD []) f sz = cleanRow (f :: f' :: fs') sz := by
          rw [cleanRow_cons f (f' :: fs') (by simp) sz, convRow]
          refine Finset.sum_congr rfl (fun i hi => ?_)
          rw [Finset.mem_range] at hi
          congr 1
          rw [hhead]
          obtain ⟨hl0, he0⟩ := hinv2 0 (by simp)
          rw [List.drop_zero] at he0
          by_cases hisz : i < sz
          · rw [List.getD_append _ _ _ _ (by omega)]
            exact he0 i hisz
          · have hieq : i = sz := by omega
            subst hieq
            rw [List.getD_append_right _ _ _ _ (by omega), hl0]
            simp
        intro k hk
        match k with
        | 0 =>
          simp only [List.getD_cons_zero, List.drop_zero]
          rw [hconv]
        | k' + 1 =>
          have hk' : k' < (f' :: fs').length := by simpa using Nat.lt_of_succ_lt_succ hk
          have := hrestext k' hk'
          simpa using this

theorem conFill_ok (fs : List (Nat → Nat)) (hfs : fs ≠ []) :
    ∀ (count : Nat) (s : CState), CSOK fs s →
    ∃ s', conFill fs count s = some s' ∧ CSOK fs s' ∧ s'.next = s.next + count ∧
      ∀ k, k < fs.length → ∃ u, s'.cs.getD k [] = s.cs.getD k [] ++ u
  | 0, s, h => ⟨s, by rw [conFill], h, by omega, fun k _ => ⟨[], by simp⟩⟩
  | count + 1, s, h => by
    obtain ⟨rows', hrows, hrlen, hext⟩ :=
      extendRows_ok fs s.cs s.next hfs h.1 (fun k hk => h.2 k hk)
    have hok1 : CSOK fs ⟨rows', s.next + 1⟩ := by
      refine ⟨hrlen, fun k hk => ?_⟩
      obtain ⟨hl, he⟩ := h.2 k hk
      constructor
      · simp only []
        rw [hext k hk, List.length_append, hl]
        simp
      · intro j hj
        simp only [] at hj ⊢
        rw [hext k hk]
        by_cases hjn : j < s.next
        · rw [List.getD_append _ _ _ _ (by omega)]
          exact he j hjn
        · have hjeq : j = s.next := by omega
          subst hjeq
          rw [List.getD_append_right _ _ _ _ (by omega), hl]
          simp
    obtain ⟨s', hfill, hok, hnext, happ⟩ := conFill_ok fs hfs count ⟨rows', s.next + 1⟩ hok1
    refine ⟨s', by rw [conFill, hrows]; exact hfill, hok, by simp only [] at hnext ⊢; omega, ?_⟩
    intro k hk
    obtain ⟨u, hu⟩ := happ k hk
    exact ⟨[cleanRow (List.drop k fs) s.next] ++ u,
      by rw [hu]; simp only []; rw [hext k hk, List.append_assoc]⟩

/-- Reading a valid in-range entry with Python indexing. -/
theorem pyGet_eq (l : List Nat) (k : Nat) (h : k < l.length) :
    pyGet l (k : Int) = some (l.getD k 0) := by
  rw [pyGet, if_pos (by omega)]
  have h2 : ((k : Int)).toNat = k := by omega
  rw [h2, List.getD_eq_getElem?_getD, List.getElem?_eq_getElem h]
  simp [List.get?_eq_getElem?, List.getElem?_eq_getElem h]

/-- Master lemma for `Constructor.card` (general branch, `K ≥ 1`): from a
valid state and `n ≥ 0`, the call returns `cleanRow fs n`, grows the matrix
append-only up to frontier `max next (n+1)`, and leaves it valid. -/
theorem conCardS_ok (fs : List (Nat → Nat)) (hfs : fs ≠ []) (n : Nat)
    (s : CState) (h : CSOK fs s) :
    (conCardS fs (n : Int) s).1 = some (cleanRow fs n) ∧
    CSOK fs (conCardS fs (n : Int) s).2 ∧
    (conCardS fs (n : Int) s).2.next = max s.next (n + 1) ∧
    ∀ k, k < fs.length → ∃ u,
      (conCardS fs (n : Int) s).2.cs.getD k [] = s.cs.getD k [] ++ u := by
  obtain ⟨s', hfill, hok, hnext, happ⟩ :=
    conFill_ok fs hfs ((n : Int) + 1 - (s.next : Int)).toNat s h
  have hlenpos : 0 < fs.length := List.length_pos.mpr hfs
  have hnext' : s'.next = max s.next (n + 1) := by omega
  have hval : conCardS fs (n : Int) s = (some (cleanRow fs n), s') := by
    rw [conCardS, hfill]
    simp only []
    cases hcs : s'.cs with
    | nil =>
      exfalso
      have hl0 := hok.1
      rw [hcs] at hl0
      simp only [List.length_nil] at hl0
      omega
    | cons row0 rest =>
      have hrl : row0.length = s'.next := by
        have := (hok.2 0 hlenpos).1
        rw [hcs] at this
        simpa using this
      have hpg : pyGet row0 (n : Int) = some (row0.getD n 0) :=
        pyGet_eq row0 n (by omega)
      show (pyGet row0 (n : Int), s') = (some (cleanRow fs n), s')
      rw [hpg]
      have hv := (hok.2 0 hlenpos).2 n (by omega)
      rw [List.drop_zero, hcs] at hv
      simp only [List.getD_cons_zero] at hv
      rw [hv]
  rw [hval]
  exact ⟨rfl, hok, hnext', happ⟩

/-- The initial `Constructor` state is a valid (empty) matrix. -/
theorem initC_ok (fs : List (Nat → Nat)) : CSOK fs (initC fs) := by
  refine ⟨by simp [initC], fun k hk => ?_⟩
  constructor
  · rw [initC]
    simp only []
    rw [List.getD_eq_getElem?_getD, List.getElem?_map,
      List.getElem?_eq_getElem hk]
    rfl
  · intro j hj
    rw [initC] at hj
    simp at hj

/-- A `card` call whose size is already below the frontier leaves the state
untouched and reads the memoized entry. -/
theorem conCardS_eval (fs : List (Nat → Nat)) (hfs : fs ≠ []) (n : Nat)
    (s : CState) (h : CSOK fs s) (hn : n < s.next) :
    conCardS fs (n : Int) s = (some (cleanRow fs n), s) := by
  have hlenpos : 0 < fs.length := List.length_pos.mpr hfs
  have hcount : ((n : Int) + 1 - (s.next : Int)).toNat = 0 := by omega
  rw [conCardS, hcount, conFill]
  simp only []
  cases hcs : s.cs with
  | nil =>
    exfalso
    have hl0 := h.1
    rw [hcs] at hl0
    simp only [List.length_nil] at hl0
    omega
  | cons row0 rest =>
    have hrl : row0.length = s.next := by
      have := (h.2 0 hlenpos).1
      rw [hcs] at this
      simpa using this
    have hpg : pyGet row0 (n : Int) = some (row0.getD n 0) :=
      pyGet_eq row0 n (by omega)
    show (pyGet row0 (n : Int), s) = (some (cleanRow fs n), s)
    rw [hpg]
    have hv := (h.2 0 hlenpos).2 n (by omega)
    rw [List.drop_zero, hcs] at hv
    simp only [List.getD_cons_zero] at hv
    rw [hv]

/-- Dropping all but the last component leaves exactly the last component. -/
theorem drop_last_eq : ∀ (fs : List (Nat → Nat)), fs ≠ [] →
    List.drop (fs.length - 1) fs = [fs.getD (fs.length - 1) (fun _ => 0)]
  | [], h => absurd rfl h
  | [f], _ => by simp
  | f :: f' :: fs', _ => by
    have ih := drop_last_eq (f' :: fs') (by simp)
    have hlen : (f :: f' :: fs').length - 1 = fs'.length + 1 := by simp
    rw [hlen, List.drop_succ_cons, List.getD_cons_succ]
    have hlen2 : (f' :: fs').length - 1 = fs'.length := by simp
    rw [hlen2] at ih
    exact ih

/-- Dropping `k < K` components exposes component `k` as the head. -/
theorem drop_cons_getD (fs : List (Nat → Nat)) (k : Nat) (hk : k < fs.length) :
    List.drop k fs = fs.getD k (fun _ => 0) :: List.drop (k + 1) fs := by
  rw [List.drop_eq_getElem_cons hk, List.getD_eq_getElem?_getD,
    List.getElem?_eq_getElem hk]
  rfl

/-- An `Enum.card` call whose size is already inside the table leaves the
table untouched and reads the memoized entry. -/
theorem enumCardS_eval (fs : List (Nat → Nat)) (n : Int) (tbl : List Nat)
    (h : EnumTblOK fs tbl) (hn : 0 < n) (hlen : n.toNat < tbl.length) :
    enumCardS fs n tbl = (sumF fs (n.toNat - 1), tbl) := by
  have hc0 : n.toNat + 1 - tbl.length = 0 := by omega
  rw [enumCardS, if_neg (by omega), hc0, enumFill]
  rw [h.2 n.toNat hlen, if_neg (by omega)]

/-! ### Claim theorems -/

/-- C1, counterexample: an `Enum` to which the same nullary constructor
`Constructor(lambda: 0, [])` is added twice is built only from `Enum` and
`Constructor`, has `card(2) = 2`, yet `index(2, 0)` and `index(2, 1)` return
the same value — `index(2, ·)` is not injective on `[0, card(2))`. -/
theorem c1_counterexample :
    cardT dupEnv (.ref 0) 2 = 2 ∧
    indexT dupEnv (.ref 0) 2 0 = some (.vint 0) ∧
    indexT dupEnv (.ref 0) 2 1 = some (.vint 0) := by
  refine ⟨?_, ?_, ?_⟩ <;>
    simp [dupEnv, cardT, indexT, scanIdx, sumCards]

/-- C1, amended: on every well-built system (builders injective on producible
arguments, alternatives of each `Enum` with pairwise disjoint value sets — as
holds for `elist(IntEnum())`), `index(n, ·)` is injective on `[0, card(n))`:
no two distinct in-range indices produce equal values. -/
theorem c1_index_injective (env : Env) (t : Term) (n i i' : Nat)
    (hgood : GoodEnv env) (ht : GoodB env t)
    (hi : i < cardT env t n) (hi' : i' < cardT env t n)
    (heq : indexT env t n i = indexT env t n i') : i = i' := by
  obtain ⟨v, hv⟩ := indexT_total env t n i hi
  exact (indexT_inj env hgood t n i n i' v ht hi hi' hv (by rw [← heq, hv])).2

/-- C1, witness: the amended theorem applies to `elist(IntEnum())` at size 4,
where `card(4) = 2`. -/
theorem c1_index_injective_witness :
    GoodEnv elistEnv ∧ cardT elistEnv (.ref 0) 4 = 2 ∧
    (indexT elistEnv (.ref 0) 4 0 = indexT elistEnv (.ref 0) 4 1 → (0 : Nat) = 1) :=
  ⟨elistEnv_good, by simp [cardT, elistEnv, sumCards, prodCard, convPC],
    fun h => c1_index_injective elistEnv (.ref 0) 4 0 1 elistEnv_good
      (by rw [GoodB]; trivial)
      (by simp [cardT, elistEnv, sumCards, prodCard, convPC])
      (by simp [cardT, elistEnv, sumCards, prodCard, convPC]) h⟩

/-- C2: for every `Enum` (children abstracted as their cardinality
functions) and every valid memo table, `card(n)` returns 0 for `n ≤ 0` and
`Σ_j c_j.card(n-1)` for `n > 0`. -/
theorem c2_enum_card_sum (fs : List (Nat → Nat)) (n : Int) (tbl : List Nat)
    (h : EnumTblOK fs tbl) :
    (enumCardS fs n tbl).1 = if n ≤ 0 then 0 else sumF fs ((n - 1).toNat) :=
  (enumCardS_ok fs n tbl h).1

/-- C2, witness: a two-child `Enum` fresh from construction, at `n = 3`. -/
theorem c2_enum_card_sum_witness :
    EnumTblOK [fun _ => 1, fun k => k] [0] ∧
    (enumCardS [fun _ => 1, fun k => k] 3 [0]).1
      = if (3 : Int) ≤ 0 then 0 else sumF [fun _ => 1, fun k => k] (((3 : Int) - 1).toNat) :=
  ⟨⟨by simp, by intro k hk; simp at hk; subst hk; simp⟩,
    c2_enum_card_sum [fun _ => 1, fun k => k] 3 [0]
      ⟨by simp, by intro k hk; simp at hk; subst hk; simp⟩⟩

/-- C3: for a `Constructor` with `K ≥ 2` components, after `card(n)` from the
initial state the memoization matrix satisfies
`cs[K-1][p] = components[K-1].card(p)` and
`cs[k][p] = Σ_{i=0}^{p} components[k].card(i) * cs[k+1][p-i]` for all
`p ≤ n`, and `card(n)` returns `cs[0][n]`. -/
theorem c3_matrix_convolution (fs : List (Nat → Nat)) (hK : 2 ≤ fs.length) (n : Nat) :
    (conCardS fs (n : Int) (initC fs)).1
      = some (((conCardS fs (n : Int) (initC fs)).2.cs.getD 0 []).getD n 0) ∧
    (∀ p, p ≤ n →
      ((conCardS fs (n : Int) (initC fs)).2.cs.getD (fs.length - 1) []).getD p 0
        = (fs.getD (fs.length - 1) (fun _ => 0)) p) ∧
    (∀ k, k + 1 < fs.length → ∀ p, p ≤ n →
      ((conCardS fs (n : Int) (initC fs)).2.cs.getD k []).getD p 0
        = ∑ i ∈ Finset.range (p + 1), (fs.getD k (fun _ => 0)) i *
            ((conCardS fs (n : Int) (initC fs)).2.cs.getD (k + 1) []).getD (p - i) 0) := by
  have hfs : fs ≠ [] := by
    intro h0
    rw [h0] at hK
    simp at hK
  obtain ⟨hval, hok, hnext, _⟩ := conCardS_ok fs hfs n (initC fs) (initC_ok fs)
  have hnext0 : (conCardS fs (n : Int) (initC fs)).2.next = n + 1 := by
    rw [hnext, initC]
    simp
  refine ⟨?_, ?_, ?_⟩
  · rw [hval, (hok.2 0 (by omega)).2 n (by omega), List.drop_zero]
  · intro p hp
    rw [(hok.2 (fs.length - 1) (by omega)).2 p (by omega), drop_last_eq fs hfs,
      cleanRow]
  · intro k hk p hp
    rw [(hok.2 k (by omega)).2 p (by omega), drop_cons_getD fs k (by omega)]
    have hne : List.drop (k + 1) fs ≠ [] := by
      intro h0
      have := List.drop_eq_nil_iff.mp h0
      omega
    rw [cleanRow_cons_reflect _ _ hne]
    refine Finset.sum_congr rfl (fun i hi => ?_)
    rw [Finset.mem_range] at hi
    rw [(hok.2 (k + 1) (by omega)).2 (p - i) (by omega)]

/-- C3, witness: the product of two `IntEnum`-like components at `n = 2`
(`K = 2`). -/
theorem c3_matrix_convolution_witness :
    2 ≤ ([fun _ => 1, fun _ => 1] : List (Nat → Nat)).length ∧
    (conCardS [fun _ => 1, fun _ => 1] (2 : Nat) (initC [fun _ => 1, fun _ => 1])).1
      = some (((conCardS [fun _ => 1, fun _ => 1] (2 : Nat)
          (initC [fun _ => 1, fun _ => 1])).2.cs.getD 0 []).getD 2 0) :=
  ⟨by simp, (c3_matrix_convolution [fun _ => 1, fun _ => 1] (by simp) 2).1⟩

/-- C4, counterexample: `IntEnum.index(5, 3)` is called with
`i = 3 ≥ card(5) = 1` and silently returns the value 5 instead of failing. -/
theorem c4_counterexample :
    intEnumCard 5 = 1 ∧ intEnumIndex 5 3 = some 5 := ⟨rfl, rfl⟩

/-- C4, amended: `Enum.index(n, i)` with `n ≥ 1` and `i ≥ card(n)` always
raises (the scan over the children exhausts and hits the `raise ValueError`);
`IntEnum` never raises, and the `Constructor` paths may also silently return
out-of-bounds values, so the guarantee is the `Enum`'s alone. -/
theorem c4_enum_index_raises (env : Env) (j : Nat) (n i : Nat)
    (h : cardT env (.ref j) (n + 1) ≤ i) : indexT env (.ref j) (n + 1) i = none := by
  rw [cardT, if_neg (by omega), Nat.add_sub_cancel] at h
  rw [indexT]
  exact scanIdx_none env (env j) n i h

/-- C4, witness: `elist(IntEnum())` at size 2 (`card(2) = 1`) with index 7. -/
theorem c4_enum_index_raises_witness :
    cardT elistEnv (.ref 0) 2 ≤ 7 ∧ indexT elistEnv (.ref 0) 2 7 = none :=
  ⟨by simp [cardT, elistEnv, sumCards, prodCard, convPC],
    c4_enum_index_raises elistEnv 0 1 7
      (by simp [cardT, elistEnv, sumCards, prodCard, convPC])⟩

/-- C5: in the code, the empty list costs 2, not 1 — the arity-0 fast path
charges one unit (`1 if n==1 else 0`) and the owning `Enum` charges another —
so `elist(IntEnum()).card(1) = 0` (the claim and the `elist` docstring say 1),
`index(1, 0)` raises (the claim says it returns `[]`), and the empty list
appears at size 2 instead. -/
theorem c5_empty_list_size_two :
    cardT elistEnv (.ref 0) 1 = 0 ∧
    indexT elistEnv (.ref 0) 1 0 = none ∧
    cardT elistEnv (.ref 0) 2 = 1 ∧
    indexT elistEnv (.ref 0) 2 0 = some (.vlist []) := by
  refine ⟨?_, ?_, ?_, ?_⟩ <;>
    simp [cardT, indexT, elistEnv, scanIdx, sumCards, prodCard, convPC, nilF]

/-- C6: the `while index > card(n)` loop of `ix` uses `>` where the claimed
behavior needs `>=`.  For `ejson` and flat index 1, the unique size with
`Σ_{s<n} card(s) ≤ 1 < Σ_{s≤n} card(s)` is `n = 2` and the claimed result is
`index(2, 0)`, the integer 1 — but the loop stops at `n = 1` with local index
`1 = card(1)` and the delegated `index(1, 1)` raises. -/
theorem c6_ix_off_by_one :
    ixM ejsonEnv (.ref 0) 5 0 1 = none ∧
    cardT ejsonEnv (.ref 0) 0 + cardT ejsonEnv (.ref 0) 1 ≤ 1 ∧
    1 < cardT ejsonEnv (.ref 0) 0 + cardT ejsonEnv (.ref 0) 1
        + cardT ejsonEnv (.ref 0) 2 ∧
    indexT ejsonEnv (.ref 0) 2
        (1 - (cardT ejsonEnv (.ref 0) 0 + cardT ejsonEnv (.ref 0) 1))
      = some (.vint 1) := by
  refine ⟨?_, ?_, ?_, ?_⟩ <;>
    simp [ixM, cardT, indexT, ejsonEnv, scanIdx, sumCards, prodCard, convPC,
      pick, indexProd, nilF, appF, listToMapF]

/-- C7, counterexample: `IntEnum.card(-1)` returns 1, not 0 — the leaf
enumerator ignores its argument entirely (src/feat.py:117-118). -/
theorem c7_counterexample : intEnumCard (-1) = 1 := rfl

/-- C7, amended: for `n < 0`, `Enum.card` returns 0 (its `n <= 0` guard) and
the arity-0 fast path returns 0; but `IntEnum.card` returns 1, and the
general `Constructor.card` on a fresh matrix raises an `IndexError`
(`self.cs[0][n]` on the empty row). -/
theorem c7_negative_card (fs : List (Nat → Nat)) (tbl : List Nat) (n : Int)
    (hneg : n < 0) :
    (enumCardS fs n tbl).1 = 0 ∧
    card0 n = 0 ∧
    intEnumCard n = 1 ∧
    (fs ≠ [] → (conCardS fs n (initC fs)).1 = none) := by
  refine ⟨?_, ?_, rfl, ?_⟩
  · rw [enumCardS, if_pos (by omega)]
  · rw [card0, if_neg (by omega)]
  · intro hfs
    match fs, hfs with
    | f :: fs', _ =>
      have hcount : (n + 1 - ((initC (f :: fs')).next : Int)).toNat = 0 := by
        rw [initC]
        simp only []
        omega
      rw [conCardS, hcount, conFill]
      show pyGet [] n = none
      rw [pyGet, if_neg (by omega), if_neg (by simp; omega)]

/-- C7, witness: a fresh binary constructor and a fresh `Enum` at `n = -2`. -/
theorem c7_negative_card_witness :
    (enumCardS [fun _ => 1] (-2) [0]).1 = 0 ∧
    (conCardS [fun _ => 1, fun _ => 1] (-2)
        (initC [fun _ => 1, fun _ => 1])).1 = none :=
  ⟨(c7_negative_card [fun _ => 1] [0] (-2) (by decide)).1,
    (c7_negative_card [fun _ => 1, fun _ => 1] [0] (-2) (by decide)).2.2.2
      (by simp)⟩

/-- C8: memoization is idempotent and monotonic, for the `Enum` table and the
`Constructor` matrix alike: a repeated `card(n)` returns the same value and
leaves the state untouched; a later `card(m)`, `m ≤ n`, returns what a fresh
`card(m)` would; the tables only ever grow by appending. -/
theorem c8_memo_idempotent (fs : List (Nat → Nat)) (n m : Int) (tbl : List Nat)
    (hok : EnumTblOK fs tbl) (_hmn : m ≤ n)
    (gs : List (Nat → Nat)) (hgs : gs ≠ []) (s : CState) (hcs : CSOK gs s)
    (n' m' : Nat) (hmn' : m' ≤ n') :
    ((enumCardS fs n (enumCardS fs n tbl).2).1 = (enumCardS fs n tbl).1 ∧
     (enumCardS fs n (enumCardS fs n tbl).2).2 = (enumCardS fs n tbl).2 ∧
     (enumCardS fs m (enumCardS fs n tbl).2).1 = (enumCardS fs m tbl).1 ∧
     ∃ u, (enumCardS fs n tbl).2 = tbl ++ u) ∧
    ((conCardS gs (n' : Int) (conCardS gs (n' : Int) s).2).1
        = (conCardS gs (n' : Int) s).1 ∧
     (conCardS gs (n' : Int) (conCardS gs (n' : Int) s).2).2
        = (conCardS gs (n' : Int) s).2 ∧
     (conCardS gs (m' : Int) (conCardS gs (n' : Int) s).2).1
        = (conCardS gs (m' : Int) s).1 ∧
     ∀ k, k < gs.length → ∃ u,
       (conCardS gs (n' : Int) s).2.cs.getD k [] = s.cs.getD k [] ++ u) := by
  obtain ⟨hv, hok1, hext, hlen⟩ := enumCardS_ok fs n tbl hok
  obtain ⟨hv', hok1', hnext', happ'⟩ := conCardS_ok gs hgs n' s hcs
  constructor
  · by_cases hneg : n ≤ 0
    · have h1 : enumCardS fs n tbl = (0, tbl) := by rw [enumCardS, if_pos hneg]
      have h2 : (enumCardS fs n tbl).2 = tbl := by rw [h1]
      refine ⟨?_, ?_, ?_, ⟨[], by rw [h2]; simp⟩⟩
      · rw [h2]
      · rw [h2]
        exact h2
      · rw [h2]
    · have heval := enumCardS_eval fs n (enumCardS fs n tbl).2 hok1 (by omega)
        (by omega)
      refine ⟨?_, ?_, ?_, hext⟩
      · rw [heval, hv, if_neg hneg]
        have he : (n - 1).toNat = n.toNat - 1 := by omega
        rw [he]
      · rw [heval]
      · rw [(enumCardS_ok fs m (enumCardS fs n tbl).2 hok1).1,
          (enumCardS_ok fs m tbl hok).1]
  · have heval := conCardS_eval gs hgs n' (conCardS gs (n' : Int) s).2 hok1'
      (by omega)
    have heval' := conCardS_eval gs hgs m' (conCardS gs (n' : Int) s).2 hok1'
      (by omega)
    refine ⟨?_, ?_, ?_, happ'⟩
    · rw [heval, hv']
    · rw [heval]
    · rw [heval', (conCardS_ok gs hgs m' s hcs).1]

/-- C8, witness: a fresh one-child `Enum` at `n = 2, m = 1` and a fresh
binary constructor at `n' = 2, m' = 1`. -/
theorem c8_memo_idempotent_witness :
    (enumCardS [fun _ => 1] 2 (enumCardS [fun _ => 1] 2 [0]).2).1
      = (enumCardS [fun _ => 1] 2 [0]).1 ∧
    (conCardS [fun _ => 1, fun _ => 1] ((2 : Nat) : Int)
        (conCardS [fun _ => 1, fun _ => 1] ((2 : Nat) : Int)
          (initC [fun _ => 1, fun _ => 1])).2).1
      = (conCardS [fun _ => 1, fun _ => 1] ((2 : Nat) : Int)
          (initC [fun _ => 1, fun _ => 1])).1 :=
  ⟨(c8_memo_idempotent [fun _ => 1] 2 1 [0]
      ⟨by simp, by intro k hk; simp at hk; subst hk; simp⟩ (by decide)
      [fun _ => 1, fun _ => 1] (by simp) (initC [fun _ => 1, fun _ => 1])
      (initC_ok _) 2 1 (by decide)).1.1,
   (c8_memo_idempotent [fun _ => 1] 2 1 [0]
      ⟨by simp, by intro k hk; simp at hk; subst hk; simp⟩ (by decide)
      [fun _ => 1, fun _ => 1] (by simp) (initC [fun _ => 1, fun _ => 1])
      (initC_ok _) 2 1 (by decide)).2.1⟩

/-- The expand loop with no components: the first iteration raises at
`self.cs[-1]` (modelled `none`); with no iterations the state is unchanged. -/
theorem conFill_nil : ∀ (count : Nat) (s : CState),
    conFill [] count s = if count = 0 then some s else none
  | 0, s => by rw [conFill]; rfl
  | k + 1, s => by rw [conFill]; rfl

/-- The general `Constructor.card` algorithm with `K = 0` components fails
for every size: either the expand loop raises, or `self.cs[0]` does. -/
theorem conCardS_nil_none (m : Int) : (conCardS [] m (initC [])).1 = none := by
  rw [conCardS, conFill_nil]
  by_cases hcc : (m + 1 - (((initC ([] : List (Nat → Nat))).next : Nat) : Int)).toNat = 0
  · rw [if_pos hcc]
    rfl
  · rw [if_neg hcc]

/-- C9, counterexample: the arity-0 fast path has `card(1) = 1`, while the
general matrix algorithm run with `K = 0` components raises an `IndexError`
(`self.cs[-1].append` on an empty `cs`) — the two do not agree. -/
theorem c9_counterexample :
    card0 1 = 1 ∧ (conCardS [] 1 (initC [])).1 = none := ⟨rfl, rfl⟩

/-- C9, amended: the arity-1 fast path agrees with the general matrix
algorithm run with `K = 1` (for `card` via the memoization matrix, and for
`index` via the general decode); the arity-0 fast path does not match the
general algorithm with `K = 0`, which fails on every `card` call. -/
theorem c9_fast_paths (g : Nat → Nat) (n : Nat) (env : Env) (f : List Val → Val)
    (t : Term) (i : Nat) :
    (conCardS [g] (n : Int) (initC [g])).1 = some (g n) ∧
    cardT env (.constr f [t]) n = cardT env t n ∧
    indexT env (.constr f [t]) n i = (indexProd env [t] n i).map f ∧
    (∀ m : Int, (conCardS [] m (initC [])).1 = none) := by
  refine ⟨?_, by rw [cardT], ?_, ?_⟩
  · rw [(conCardS_ok [g] (by simp) n (initC [g]) (initC_ok [g])).1, cleanRow]
  · rw [indexT, indexProd]
    cases indexT env t n i <;> simp
  · exact conCardS_nil_none

/-- C10: on every system expressible with `Enum`, `Constructor` and `IntEnum`
— where recursion is necessarily tied through `Enum` nodes, which charge a
unit of size before recursing — `card` and `index` terminate, and
`index(n, i)` returns a value for every in-bounds `i < card(n)`. -/
theorem c10_index_terminates (env : Env) (t : Term) (n i : Nat)
    (hi : i < cardT env t n) : ∃ v, indexT env t n i = some v :=
  indexT_total env t n i hi

/-- C10, witness: the recursive `elist(IntEnum())` system at size 4,
index 1. -/
theorem c10_index_terminates_witness :
    1 < cardT elistEnv (.ref 0) 4 ∧ ∃ v, indexT elistEnv (.ref 0) 4 1 = some v :=
  ⟨by simp [cardT, elistEnv, sumCards, prodCard, convPC],
    c10_index_terminates elistEnv (.ref 0) 4 1
      (by simp [cardT, elistEnv, sumCards, prodCard, convPC])⟩
